import Mathlib

/-!
Verification development for the Hermes2D adaptive hp-FEM example drivers
(tests/examples/crack/main.cpp, the bracket example driver, and the
singpert example driver), against their natural-language specification.

The drivers set tunable constants, build meshes and H1 spaces, and run a
do-while adaptivity loop: build a globally refined reference problem, solve
it, project the reference solution onto the coarse space, estimate the
error, and either stop (error below tolerance, or DOF cap hit) or adapt
the coarse mesh.  The library internals (Adapt, project_global,
solve_linear) are declared but not present in the repository snapshot, so
those parts are modelled from the specification; the driver-level control
flow is translated directly from the driver sources.
-/

namespace Hermes2D

/-- A mesh element; `level` is its refinement depth (children of a split
element have depth one greater than the parent). -/
structure Elem where
  level : ℕ
deriving DecidableEq, Repr

/-- Modelled from the spec: a Mesh is a set of elements supporting uniform
refinement and deep copy (`Mesh::copy`, `Mesh::refine_all_elements`). -/
abbrev Mesh : Type := List Elem

/-- Modelled from the spec: `refine_all_elements` applies one global uniform
refinement pass, splitting every element into four children of one deeper
refinement level. -/
def refineAllElements (m : Mesh) : Mesh :=
  m.flatMap fun e => List.replicate 4 ⟨e.level + 1⟩

/-- Modelled from the spec: `Mesh::copy` produces a deep copy; in a pure
embedding a deep copy is the value itself. -/
def meshCopy (m : Mesh) : Mesh := m

/-- Modelled from the spec: an H1 Space owns a reference to a Mesh and a
per-element polynomial order (`H1Space`); DOF enumeration is summarised by
`numDofs` below. -/
structure H1Space where
  mesh : Mesh
  orders : List ℕ
deriving DecidableEq

/-- Modelled from the spec: `Space::dup` duplicates a Space onto another
(refined) mesh; element orders are unset until `copy_orders` runs. -/
def H1Space.dup (_s : H1Space) (m : Mesh) : H1Space :=
  ⟨m, List.replicate m.length 0⟩

/-- Modelled from the spec: `Space::copy_orders(src, inc)` gives every child
element of the refined mesh the order of its coarse parent plus the
increment `inc` (each coarse element has four children after one global
refinement pass). -/
def H1Space.copyOrders (tgt : H1Space) (src : H1Space) (inc : ℕ) : H1Space :=
  ⟨tgt.mesh, src.orders.flatMap fun o => List.replicate 4 (o + inc)⟩

/-- Modelled from the spec: `get_num_dofs` enumerates the global degrees of
freedom of a Space; each element contributes its polynomial order worth of
DOFs. -/
def numDofs (s : H1Space) : ℕ := s.orders.sum

/-- Outcome of the tail of one adaptivity iteration: whether the loop flag
`done` was set, and whether `adapt` was invoked in that iteration. -/
structure StepResult where
  done : Bool
  adaptCalled : Bool
deriving DecidableEq, Repr

/-- Stopping logic of the crack test driver (main.cpp lines 153-158):
`if (err_est < ERR_STOP || ndof >= NDOF_STOP) done = true; else { done =
hp.adapt(...); if (ndof >= NDOF_STOP) done = true; }`.  `ndofPre` is the
DOF count at the check, `ndofPost` the count after the adapt call. -/
def crackStopStep (err errStop : ℚ) (ndofPre ndofPost ndofStop : ℕ)
    (adaptRet : Bool) : StepResult :=
  if err < errStop ∨ ndofStop ≤ ndofPre then ⟨true, false⟩
  else ⟨adaptRet || decide (ndofStop ≤ ndofPost), true⟩

/-- Stopping logic of the bracket example driver (lines 199-204):
`if (err_est < ERR_STOP) done = true; else { done = hp.adapt(...); if
(ndof >= NDOF_STOP) done = true; }`.  The DOF cap is only consulted after
the adapt call; `ndofPre` (the count at the stopping check) is ignored by
the code. -/
def bracketStopStep (err errStop : ℚ) (_ndofPre ndofPost ndofStop : ℕ)
    (adaptRet : Bool) : StepResult :=
  if err < errStop then ⟨true, false⟩
  else ⟨adaptRet || decide (ndofStop ≤ ndofPost), true⟩

/-- Stopping logic of the singpert example driver (lines 212-217):
`if (err_est < ERR_STOP) done = true; else { hp.adapt(...); ndof =
assign_dofs(&space); if (ndof >= NDOF_STOP) done = true; }`. -/
def singpertStopStep (err errStop : ℚ) (_ndofPre ndofPost ndofStop : ℕ) :
    StepResult :=
  if err < errStop then ⟨true, false⟩
  else ⟨decide (ndofStop ≤ ndofPost), true⟩

/-- Maximum single-element error of an element-error list (0 when empty;
element errors are nonnegative). -/
def maxElemError (errs : List ℚ) : ℚ :=
  errs.foldr (fun a b => if a ≤ b then b else a) 0

/-- Modelled from the spec: adaptive strategy 1 (relative-to-max), as
documented in the drivers: refine all elements whose error is larger than
THRESHOLD times the maximum element error.  Returns one flag per
element. -/
def relMaxSelect (thr : ℚ) (errs : List ℚ) : List Bool :=
  errs.map fun e => decide (thr * maxElemError errs < e)

/-- DOF bound of the crack test driver (main.cpp line 169):
`int ndof_allowed = 650;`. -/
def ndofAllowed : ℕ := 650

/-- Exit logic of the crack test driver (main.cpp lines 165-179): return
0 (ERROR_SUCCESS) when the final coarse DOF count is at most 650, and
-1 (ERROR_FAILURE) otherwise. -/
def crackExitCode (ndof : ℕ) : Int :=
  if ndof ≤ ndofAllowed then 0 else -1

/-- C9: the crack test driver returns exit code 0 if and only if the final
total coarse DOF count is at most 650, and -1 otherwise. -/
theorem crack_exit_code_spec :
    ∀ n : ℕ, (crackExitCode n = 0 ↔ n ≤ 650) ∧
      (crackExitCode n = -1 ↔ ¬ (n ≤ 650)) := by
  intro n
  by_cases h : n ≤ ndofAllowed <;>
    simp [crackExitCode, ndofAllowed, h]

/-- C2 counterexample: with threshold 0.3 and element errors 5, 9 and 10
(so maximum error 10), strategy relative-to-max refines all three
elements; in particular the element whose error is 0.5 times the maximum
IS refined (5 > 0.3 * 10), contrary to the claim. -/
theorem relmax_half_max_refined :
    relMaxSelect (3/10) [5, 9, 10] = [true, true, true] := by
  simp [relMaxSelect, maxElemError]
  norm_num

/-- C2 (amended): under strategy relative-to-max an element is refined if
and only if its error exceeds threshold times the maximum single-element
error; with threshold 0.3 and maximum error 10, an element with error 0.5
times the maximum is refined (since 0.5 > 0.3), and one with error 0.9
times the maximum is refined. -/
theorem relmax_select_spec :
    (∀ (thr : ℚ) (errs : List ℚ) (i : ℕ) (hi : i < errs.length),
        (relMaxSelect thr errs).get? i =
          some (decide (thr * maxElemError errs < errs.get ⟨i, hi⟩))) ∧
      (relMaxSelect (3/10) [5, 9, 10]).get? 0 = some true ∧
      (relMaxSelect (3/10) [5, 9, 10]).get? 1 = some true := by
  refine ⟨?_, ?_, ?_⟩
  · intro thr errs i hi
    simp [relMaxSelect, List.get?_eq_getElem?, List.getElem?_map,
      List.getElem?_eq_getElem hi, List.get_eq_getElem]
  · simp [relMaxSelect, maxElemError]
    norm_num
  · simp [relMaxSelect, maxElemError]
    norm_num

/-- C2 witness: the characterization applied at a concrete input. -/
theorem relmax_select_spec_witness :
    (relMaxSelect (3/10) [5, 9, (10 : ℚ)]).get? 0 =
      some (decide ((3/10 : ℚ) * maxElemError [5, 9, 10] <
        ([5, 9, (10 : ℚ)] : List ℚ).get ⟨0, by decide⟩)) :=
  relmax_select_spec.1 (3/10) [5, 9, 10] 0 (by decide)

/-- C1 counterexample: in the bracket driver, with ERR_STOP = 1,
NDOF_STOP = 100, error estimate 2 (not below tolerance) and a DOF count of
120 at the stopping check (at or above the cap), the adapt call IS
performed in that iteration, contrary to the claim. -/
theorem dofcap_check_counterexample :
    100 ≤ 120 ∧ ¬ ((2 : ℚ) < 1) ∧
      (bracketStopStep 2 1 120 130 100 false).adaptCalled = true := by
  decide

/-- C1 (amended): in the crack driver, whenever the error estimate is
below ERR_STOP or the DOF count at the stopping check is at or above
NDOF_STOP, the iteration sets done with no adapt call.  In the bracket and
singpert drivers the stopping check tests only the error estimate; when
the DOF count is at or above the cap and the error is not below tolerance,
adapt is still called, but since adaptation never decreases the DOF count
the post-adapt cap check sets done, so the loop still transitions to
DONE at the end of that iteration. -/
theorem stop_check_spec :
    (∀ (err errStop : ℚ) (pre post cap : ℕ) (aRet : Bool),
        (err < errStop ∨ cap ≤ pre) →
          crackStopStep err errStop pre post cap aRet = ⟨true, false⟩) ∧
    (∀ (err errStop : ℚ) (pre post cap : ℕ) (aRet : Bool),
        err < errStop →
          bracketStopStep err errStop pre post cap aRet = ⟨true, false⟩) ∧
    (∀ (err errStop : ℚ) (pre post cap : ℕ) (aRet : Bool),
        ¬ (err < errStop) → cap ≤ pre → pre ≤ post →
          bracketStopStep err errStop pre post cap aRet = ⟨true, true⟩) ∧
    (∀ (err errStop : ℚ) (pre post cap : ℕ),
        err < errStop →
          singpertStopStep err errStop pre post cap = ⟨true, false⟩) ∧
    (∀ (err errStop : ℚ) (pre post cap : ℕ),
        ¬ (err < errStop) → cap ≤ pre → pre ≤ post →
          singpertStopStep err errStop pre post cap = ⟨true, true⟩) := by
  refine ⟨?_, ?_, ?_, ?_, ?_⟩
  · intro err errStop pre post cap aRet h
    simp [crackStopStep, h]
  · intro err errStop pre post cap aRet h
    simp [bracketStopStep, h]
  · intro err errStop pre post cap aRet h1 h2 h3
    have hpost : cap ≤ post := le_trans h2 h3
    simp [bracketStopStep, h1, hpost]
  · intro err errStop pre post cap h
    simp [singpertStopStep, h]
  · intro err errStop pre post cap h1 h2 h3
    have hpost : cap ≤ post := le_trans h2 h3
    simp [singpertStopStep, h1, hpost]

/-- C1 witness: the amended stopping-check properties applied at concrete
inputs. -/
theorem stop_check_spec_witness :
    crackStopStep 1 2 50 60 100 false = ⟨true, false⟩ ∧
      crackStopStep 3 2 120 130 100 false = ⟨true, false⟩ ∧
      bracketStopStep 1 2 50 60 100 false = ⟨true, false⟩ ∧
      bracketStopStep 3 2 120 130 100 false = ⟨true, true⟩ ∧
      singpertStopStep 1 2 50 60 100 = ⟨true, false⟩ ∧
      singpertStopStep 3 2 120 130 100 = ⟨true, true⟩ :=
  ⟨stop_check_spec.1 1 2 50 60 100 false (Or.inl (by decide)),
   stop_check_spec.1 3 2 120 130 100 false (Or.inr (by decide)),
   stop_check_spec.2.1 1 2 50 60 100 false (by decide),
   stop_check_spec.2.2.1 3 2 120 130 100 false (by decide) (by decide)
     (by decide),
   stop_check_spec.2.2.2.1 1 2 50 60 100 (by decide),
   stop_check_spec.2.2.2.2 3 2 120 130 100 (by decide) (by decide)
     (by decide)⟩

/-- Order-increase constant of the reference problem, fixed at 1 in the
drivers (`int order_increase = 1;`). -/
def orderIncrease : ℕ := 1

/-- Reference problem construction as performed by the drivers each
iteration (crack main.cpp lines 111-123): copy each coarse mesh, refine
all its elements once, duplicate the coarse space onto the refined copy,
and copy the coarse orders with the order increase. -/
def buildReferenceSpace (coarse : H1Space) (inc : ℕ) : H1Space :=
  let refMesh := refineAllElements (meshCopy coarse.mesh)
  let refSpace := coarse.dup refMesh
  refSpace.copyOrders coarse inc

/-- Modelled from the spec (Reference Problem Builder): deep-copy the
coarse mesh, split every element into its four children in one uniform
pass, and give every child element the parent's polynomial order plus
one. -/
def specReferenceSpace (coarse : H1Space) : H1Space :=
  ⟨(meshCopy coarse.mesh).flatMap fun e => List.replicate 4 ⟨e.level + 1⟩,
   coarse.orders.flatMap fun o => List.replicate 4 (o + 1)⟩

lemma length_refineAll (m : Mesh) :
    (refineAllElements m).length = 4 * m.length := by
  induction m with
  | nil => rfl
  | cons e t ih =>
    simp only [refineAllElements, List.flatMap_cons, List.length_append,
      List.length_replicate, List.length_cons] at *
    omega

/-- C4: every iteration builds the reference problem by deep-copying the
coarse mesh, applying exactly one global uniform refinement pass (every
element split), duplicating the coarse space onto the refined copy, and
raising every element's order by the order-increase constant, which is
fixed at 1. -/
theorem reference_problem_construction :
    ∀ coarse : H1Space,
      buildReferenceSpace coarse orderIncrease = specReferenceSpace coarse ∧
      orderIncrease = 1 ∧
      (buildReferenceSpace coarse orderIncrease).mesh.length =
        4 * coarse.mesh.length := by
  intro coarse
  exact ⟨rfl, rfl, length_refineAll coarse.mesh⟩

lemma sum_flatMap_replicate (l : List ℕ) (inc : ℕ) :
    (l.flatMap fun o => List.replicate 4 (o + inc)).sum =
      4 * l.sum + 4 * (l.length * inc) := by
  induction l with
  | nil => simp
  | cons a t ih =>
    simp only [List.flatMap_cons, List.sum_append, List.sum_replicate,
      smul_eq_mul, ih, List.sum_cons, List.length_cons]
    ring

/-- C5: the reference space never has fewer DOFs than the coarse space,
and has strictly more whenever the order increase is at least 1 and the
global refinement pass acted on at least one element. -/
theorem ref_space_dof_growth :
    ∀ (coarse : H1Space) (inc : ℕ),
      numDofs coarse ≤ numDofs (buildReferenceSpace coarse inc) ∧
      (1 ≤ inc → coarse.orders ≠ [] →
        numDofs coarse < numDofs (buildReferenceSpace coarse inc)) := by
  intro coarse inc
  have h : numDofs (buildReferenceSpace coarse inc) =
      4 * coarse.orders.sum + 4 * (coarse.orders.length * inc) :=
    sum_flatMap_replicate coarse.orders inc
  constructor
  · rw [h]
    unfold numDofs
    generalize coarse.orders.sum = S
    generalize coarse.orders.length * inc = X
    omega
  · intro h1 h2
    rw [h]
    have hlen : 1 ≤ coarse.orders.length := List.length_pos.mpr h2
    have hx : 1 ≤ coarse.orders.length * inc := by
      calc 1 = 1 * 1 := by omega
        _ ≤ coarse.orders.length * inc := Nat.mul_le_mul hlen h1
    unfold numDofs
    generalize coarse.orders.sum = S at *
    generalize coarse.orders.length * inc = X at *
    omega

/-- C5 witness: strict DOF growth at a concrete one-element space of
order 2 with order increase 1. -/
theorem ref_space_dof_growth_witness :
    numDofs ⟨[⟨0⟩], [2]⟩ <
      numDofs (buildReferenceSpace ⟨[⟨0⟩], [2]⟩ 1) :=
  (ref_space_dof_growth ⟨[⟨0⟩], [2]⟩ 1).2 (by decide) (by decide)

/-- Modelled from the spec (Error Estimator): the squared error
contribution of one coarse element is the symmetric bilinear error form of
the difference between reference and coarse solution evaluated against
itself over that element, summarised as the squared difference of the two
solution values on the element. -/
def elemErrSq (c r : ℚ) : ℚ := (r - c) ^ 2

/-- Modelled from the spec: the total squared error accumulates the
squared per-element errors of all coarse elements. -/
def totalErrSq (cs rs : List ℚ) : ℚ := (List.zipWith elemErrSq cs rs).sum

lemma totalErrSq_self (l : List ℚ) : totalErrSq l l = 0 := by
  induction l with
  | nil => rfl
  | cons a t ih =>
    have h : totalErrSq (a :: t) (a :: t) = elemErrSq a a + totalErrSq t t := by
      simp [totalErrSq, List.zipWith_cons_cons]
    rw [h, ih]
    simp [elemErrSq]

/-- C3: the reported total error, `100 * sqrt (sum of squared element
errors) / normalization` with a square-root normalization, is never
negative, and it is zero when the coarse solution exactly equals the
reference solution it is compared against. -/
theorem error_estimate_contract :
    ∀ (cs rs : List ℚ) (normSq : ℝ),
      0 ≤ 100 * Real.sqrt ((totalErrSq cs rs : ℚ) : ℝ) / Real.sqrt normSq ∧
      (cs = rs →
        100 * Real.sqrt ((totalErrSq cs rs : ℚ) : ℝ) / Real.sqrt normSq
          = 0) := by
  intro cs rs normSq
  constructor
  · positivity
  · intro h
    subst h
    rw [totalErrSq_self]
    push_cast
    simp

/-- C3 witness: the zero-error case applied at a concrete input. -/
theorem error_estimate_contract_witness :
    100 * Real.sqrt ((totalErrSq [1, 2] [1, 2] : ℚ) : ℝ) / Real.sqrt 4
      = 0 :=
  (error_estimate_contract [1, 2] [1, 2] 4).2 rfl

/-- Modelled from the spec (Projector): the coarse space is embedded into
the reference space by prolongation; each coarse value is carried by the
two children of the refined element. -/
def prolong (c : List ℚ) : List ℚ := c.flatMap fun x => [x, x]

/-- Modelled from the spec: `project_global` computes the coarse
coefficient vector minimizing the norm of the difference with the
reference solution; for the prolongation embedding this is the pairwise
mean of the reference values. -/
def projectCoarse : List ℚ → List ℚ
  | a :: b :: rest => (a + b) / 2 :: projectCoarse rest
  | _ => []

lemma projectCoarse_prolong (c : List ℚ) : projectCoarse (prolong c) = c := by
  induction c with
  | nil => rfl
  | cons x t ih =>
    have hx : prolong (x :: t) = x :: x :: prolong t := rfl
    rw [hx]
    simp only [projectCoarse, ih, List.cons.injEq, and_true]
    ring

/-- C7: projecting a reference solution that is already exactly
representable in the coarse space reproduces its coarse coefficients
(idempotence), and the error estimate between the projection and the
reference solution is zero. -/
theorem projection_idempotent :
    ∀ c : List ℚ,
      projectCoarse (prolong c) = c ∧
      totalErrSq (prolong (projectCoarse (prolong c))) (prolong c) = 0 := by
  intro c
  refine ⟨projectCoarse_prolong c, ?_⟩
  rw [projectCoarse_prolong c]
  exact totalErrSq_self _

/-- Observable events of one run of the adaptivity loop, in execution
order: reference solve, projection, error estimation, stopping check,
adapt step, and a fatal solver failure. -/
inductive LoopEvent where
  | solveRef
  | project
  | estimate
  | stopCheck
  | adaptStep
  | solverFail
deriving DecidableEq, Repr

/-- Result of the adaptivity loop: normal completion with the final space
and error, a fatal solver failure carrying the state of the last completed
iteration, or fuel exhaustion. -/
inductive LoopResult where
  | done (s : H1Space) (err : ℚ)
  | failed (s : H1Space)
  | outOfFuel (s : H1Space)
deriving DecidableEq

/-- Modelled from the spec (Adaptivity Engine): the do-while adaptivity
loop shared by all three drivers.  Each iteration solves the reference
problem (`solve`, returning `none` on a SolverError), and on success
checks the stopping condition after projection and error estimation;
when the condition fails it adapts the coarse space and repeats.  A
solver failure aborts the run at once with the incoming state. -/
def runAdaptLoop (solve : H1Space → Option ℚ) (adaptFn : H1Space → H1Space)
    (stop : ℚ → H1Space → Bool) : ℕ → H1Space → LoopResult
  | 0, s => LoopResult.outOfFuel s
  | fuel + 1, s =>
    match solve s with
    | none => LoopResult.failed s
    | some err =>
      if stop err s then LoopResult.done s err
      else runAdaptLoop solve adaptFn stop fuel (adaptFn s)

/-- Modelled from the spec: the event trace of the do-while adaptivity
loop.  The loop body (reference solve, projection, error estimation) runs
before the stopping condition is evaluated; a solver failure ends the
trace at once. -/
def loopTrace (solve : H1Space → Option ℚ) (adaptFn : H1Space → H1Space)
    (stop : ℚ → H1Space → Bool) : ℕ → H1Space → List LoopEvent
  | 0, _ => []
  | fuel + 1, s =>
    match solve s with
    | none => [LoopEvent.solveRef, LoopEvent.solverFail]
    | some err =>
      LoopEvent.solveRef :: LoopEvent.project :: LoopEvent.estimate ::
        LoopEvent.stopCheck ::
        (if stop err s then []
         else LoopEvent.adaptStep :: loopTrace solve adaptFn stop fuel (adaptFn s))

/-- C8: when the linear solve of an iteration fails, the adaptivity loop
terminates immediately with a fatal error: the failure is propagated and
never retried, no adapt step occurs in that iteration, and the state left
behind is the state produced by the last completed iteration. -/
theorem solver_failure_aborts :
    ∀ (solve : H1Space → Option ℚ) (adaptFn : H1Space → H1Space)
      (stop : ℚ → H1Space → Bool) (fuel : ℕ) (s : H1Space),
      solve s = none →
        runAdaptLoop solve adaptFn stop (fuel + 1) s = LoopResult.failed s ∧
        loopTrace solve adaptFn stop (fuel + 1) s =
          [LoopEvent.solveRef, LoopEvent.solverFail] := by
  intro solve adaptFn stop fuel s h
  constructor
  · simp [runAdaptLoop, h]
  · simp [loopTrace, h]

/-- C8 witness: a one-iteration run with an always-failing solver. -/
theorem solver_failure_aborts_witness :
    runAdaptLoop (fun _ => none) id (fun _ _ => true) 1 ⟨[], []⟩ =
        LoopResult.failed ⟨[], []⟩ ∧
      loopTrace (fun _ => none) id (fun _ _ => true) 1 ⟨[], []⟩ =
        [LoopEvent.solveRef, LoopEvent.solverFail] :=
  solver_failure_aborts (fun _ => none) id (fun _ _ => true) 0 ⟨[], []⟩ rfl

/-- C10: the adaptivity loop is a do-while loop: whenever the solver
succeeds, the reference solve, projection and error estimation are
executed before the first stopping check, for every initial state and
every stopping condition, including configurations whose stopping
condition already holds initially. -/
theorem loop_body_runs_first :
    ∀ (solve : H1Space → Option ℚ) (adaptFn : H1Space → H1Space)
      (stop : ℚ → H1Space → Bool) (fuel : ℕ) (s : H1Space) (e : ℚ),
      solve s = some e →
        (loopTrace solve adaptFn stop (fuel + 1) s).take 4 =
          [LoopEvent.solveRef, LoopEvent.project, LoopEvent.estimate,
           LoopEvent.stopCheck] := by
  intro solve adaptFn stop fuel s e h
  simp [loopTrace, h]

/-- C10 witness: a run whose stopping condition holds immediately still
performs the solve, projection and estimation first. -/
theorem loop_body_runs_first_witness :
    (loopTrace (fun _ => some 0) id (fun _ _ => true) 1 ⟨[], []⟩).take 4 =
      [LoopEvent.solveRef, LoopEvent.project, LoopEvent.estimate,
       LoopEvent.stopCheck] :=
  loop_body_runs_first (fun _ => some 0) id (fun _ _ => true) 0 ⟨[], []⟩ 0 rfl

/-- Modelled from the spec: adaptive strategy 0 (cumulative), as
documented in the drivers: process elements in descending error order and
refine until the accumulated processed error reaches `cutoff`
(`sqrt(THRESHOLD)` times the total error, kept symbolic here); when the
accumulated error reaches the cutoff inside a run of equal-error elements,
the remaining tied elements are still refined to keep the mesh symmetric.
`acc` is the error processed so far and `prev` the error of the last
refined element. -/
def cumulGo (cutoff : ℚ) : ℚ → Option ℚ → List ℚ → List Bool
  | _, _, [] => []
  | acc, prev, e :: rest =>
    if acc < cutoff ∨ prev = some e then
      true :: cumulGo cutoff (acc + e) (some e) rest
    else
      false :: cumulGo cutoff acc prev rest

/-- Modelled from the spec: the cumulative strategy applied to the
descending-sorted element error list, returning one refinement flag per
element. -/
def cumulSelect (cutoff : ℚ) (errs : List ℚ) : List Bool :=
  cumulGo cutoff 0 none errs

lemma cumulGo_getElem? (cutoff : ℚ) :
    ∀ (l : List ℚ) (acc : ℚ) (prev : Option ℚ),
      l.Sorted (· ≥ ·) →
      (∀ e ∈ l, 0 ≤ e) →
      (∀ p, prev = some p → ∀ x ∈ l, x ≤ p) →
      ∀ (i : ℕ) (hi : i < l.length),
        (cumulGo cutoff acc prev l)[i]? =
          some (decide
            (acc + (l.filter fun x => decide (l.get ⟨i, hi⟩ < x)).sum < cutoff ∨
             (prev = some (l.get ⟨i, hi⟩) ∧
              l.filter (fun x => decide (l.get ⟨i, hi⟩ < x)) = []))) := by
  intro l
  induction l with
  | nil =>
    intro acc prev _ _ _ i hi
    exact absurd hi (by simp)
  | cons e rest ih =>
    intro acc prev hs hnn hprev i hi
    obtain ⟨he, hrest⟩ := List.sorted_cons.mp hs
    have hnnr : ∀ x ∈ rest, 0 ≤ x := fun x hx => hnn x (List.mem_cons_of_mem e hx)
    cases i with
    | zero =>
      have hget : (e :: rest).get ⟨0, hi⟩ = e := rfl
      rw [hget]
      have hfe : (e :: rest).filter (fun x => decide (e < x)) = [] := by
        apply List.filter_eq_nil_iff.mpr
        intro a ha
        simp only [List.mem_cons] at ha
        simp only [decide_eq_true_eq, not_lt]
        rcases ha with rfl | ha
        · exact le_refl a
        · exact he a ha
      rw [hfe]
      simp only [cumulGo]
      by_cases hc : acc < cutoff ∨ prev = some e
      · rw [if_pos hc]
        simp only [List.getElem?_cons_zero, List.sum_nil, add_zero]
        rcases hc with h1 | h2
        · simp [h1]
        · simp [h2]
      · rw [if_neg hc]
        rw [not_or] at hc
        simp only [List.getElem?_cons_zero, List.sum_nil, add_zero]
        simp [hc.1, hc.2]
    | succ j =>
      have hj : j < rest.length := by
        simp only [List.length_cons] at hi
        omega
      have hv : (e :: rest).get ⟨j + 1, hi⟩ = rest.get ⟨j, hj⟩ := rfl
      rw [hv]
      have hvmem : rest.get ⟨j, hj⟩ ∈ rest := rest.get_mem j hj
      have hvle : rest.get ⟨j, hj⟩ ≤ e := he _ hvmem
      simp only [cumulGo]
      by_cases hc : acc < cutoff ∨ prev = some e
      · rw [if_pos hc, List.getElem?_cons_succ,
          ih (acc + e) (some e) hrest hnnr
            (by
              rintro p hp x hx
              injection hp with hp
              subst hp
              exact he x hx) j hj]
        congr 1
        rw [decide_eq_decide]
        by_cases hve : rest.get ⟨j, hj⟩ < e
        · have hfc : (e :: rest).filter (fun x => decide (rest.get ⟨j, hj⟩ < x)) =
              e :: rest.filter (fun x => decide (rest.get ⟨j, hj⟩ < x)) := by
            simp only [List.filter_cons]
            rw [if_pos (by simpa using hve)]
          rw [hfc]
          simp only [List.sum_cons]
          constructor
          · rintro (h | ⟨hp, _⟩)
            · left
              linarith
            · exact absurd (Option.some.inj hp).symm (ne_of_lt hve)
          · rintro (h | ⟨_, hnil⟩)
            · left
              linarith
            · exact absurd hnil (by simp)
        · have hev : rest.get ⟨j, hj⟩ = e := le_antisymm hvle (not_lt.mp hve)
          have hf1 : (e :: rest).filter (fun x => decide (rest.get ⟨j, hj⟩ < x)) =
              rest.filter (fun x => decide (rest.get ⟨j, hj⟩ < x)) := by
            simp only [List.filter_cons]
            rw [if_neg (by simpa using hve)]
          have hf2 : rest.filter (fun x => decide (rest.get ⟨j, hj⟩ < x)) = [] := by
            apply List.filter_eq_nil_iff.mpr
            intro a ha
            simp only [decide_eq_true_eq, not_lt]
            rw [hev]
            exact he a ha
          rw [hf1, hf2]
          simp only [List.sum_nil, add_zero]
          constructor
          · intro _
            rcases hc with h1 | h2
            · exact Or.inl h1
            · exact Or.inr ⟨by rw [hev]; exact h2, trivial⟩
          · intro _
            exact Or.inr ⟨by rw [hev], trivial⟩
      · rw [if_neg hc, List.getElem?_cons_succ,
          ih acc prev hrest hnnr
            (fun p hp x hx => hprev p hp x (List.mem_cons_of_mem e hx)) j hj]
        rw [not_or] at hc
        obtain ⟨hc1, hc2⟩ := hc
        have hacc : cutoff ≤ acc := not_lt.mp hc1
        congr 1
        rw [decide_eq_decide]
        have hSc : 0 ≤ ((e :: rest).filter
            (fun x => decide (rest.get ⟨j, hj⟩ < x))).sum :=
          List.sum_nonneg fun a ha => hnn a (List.mem_of_mem_filter ha)
        have hSr : 0 ≤ (rest.filter
            (fun x => decide (rest.get ⟨j, hj⟩ < x))).sum :=
          List.sum_nonneg fun a ha => hnnr a (List.mem_of_mem_filter ha)
        have hprev_ne : prev ≠ some (rest.get ⟨j, hj⟩) := by
          intro hp
          have h1 : e ≤ rest.get ⟨j, hj⟩ :=
            hprev _ hp e (List.mem_cons_self e rest)
          have h2 : rest.get ⟨j, hj⟩ = e := le_antisymm hvle h1
          rw [h2] at hp
          exact hc2 hp
        constructor
        · rintro (h | ⟨hp, _⟩)
          · exfalso
            linarith
          · exact absurd hp hprev_ne
        · rintro (h | ⟨hp, _⟩)
          · exfalso
            linarith
          · exact absurd hp hprev_ne

/-- C6: under strategy cumulative (STRATEGY = 0), on a descending-sorted
nonnegative element error list, an element is refined exactly when the
accumulated error of all strictly larger elements (the error processed
before its tie group) is still below the cutoff, `sqrt(threshold)` times
the total error; consequently elements are refined in descending order
until the accumulated processed error reaches the cutoff, and all
elements tied on an equal error value are refined together. -/
theorem cumulative_strategy_spec (cutoff : ℚ) (errs : List ℚ)
    (hs : errs.Sorted (· ≥ ·)) (hnn : ∀ e ∈ errs, 0 ≤ e) :
    (∀ (i : ℕ) (hi : i < errs.length),
        (cumulSelect cutoff errs)[i]? =
          some (decide
            ((errs.filter fun x => decide (errs.get ⟨i, hi⟩ < x)).sum <
              cutoff))) ∧
    (∀ (i j : ℕ) (hi : i < errs.length) (hj : j < errs.length),
        errs.get ⟨i, hi⟩ = errs.get ⟨j, hj⟩ →
          (cumulSelect cutoff errs)[i]? = (cumulSelect cutoff errs)[j]?) := by
  have key : ∀ (i : ℕ) (hi : i < errs.length),
      (cumulSelect cutoff errs)[i]? =
        some (decide
          ((errs.filter fun x => decide (errs.get ⟨i, hi⟩ < x)).sum <
            cutoff)) := by
    intro i hi
    have h := cumulGo_getElem? cutoff errs 0 none hs hnn
      (fun p hp => nomatch hp) i hi
    rw [cumulSelect, h]
    congr 1
    rw [decide_eq_decide]
    constructor
    · rintro (h1 | ⟨hp, _⟩)
      · linarith
      · exact nomatch hp
    · intro h1
      left
      linarith
  refine ⟨key, ?_⟩
  intro i j hi hj hij
  rw [key i hi, key j hj, hij]

/-- C6 witness: the characterization and the tie rule applied to the
concrete sorted error list [4, 2, 2, 1] with cutoff 5 (the two tied
elements of error 2 receive the same refinement decision). -/
theorem cumulative_strategy_spec_witness :
    (cumulSelect 5 [4, 2, 2, 1])[1]? = (cumulSelect 5 [4, 2, 2, 1])[2]? :=
  (cumulative_strategy_spec 5 [4, 2, 2, 1] (by decide) (by decide)).2
    1 2 (by decide) (by decide) (by decide)

end Hermes2D
